import Mathlib

/-!
Verification of the chapter text-transformation pipeline of the
KnoxTranslationPdfMaker repository (`FirstMaccabees.py`).

The Python source is shallowly embedded: paragraph and footnote text is
`List Char`, each regular-expression substitution of the source is embedded
as a structurally recursive scanner with the same matching semantics
(leftmost, non-overlapping, greedy character classes), Python list indexing
(including negative indices) is `pyIndex`, and code that can raise an
`IndexError` returns `Except PyErr`.

One cross-cutting artifact of the source is modelled explicitly: a string
used as the *replacement* argument of `re.sub` undergoes template-escape
processing, which collapses every pair of backslashes into one and passes
unknown escapes through unchanged (the legacy semantics the source relies
on, e.g. for `\lettrine` and `\pend`).  `replEsc` models this collapse;
group references other than the `\1` written literally in the source do not
occur in this pipeline's strings and are not modelled.
-/

/-- Kind of run-aborting failure the embedded code can produce: a Python
`IndexError` from list indexing, carrying the offending index. -/
inductive PyErr where
  | indexOutOfRange : Int → PyErr
deriving DecidableEq, Repr

/-- Python list indexing `l[i]`: negative indices count from the end;
an index out of range yields `none` (the Python `IndexError`). -/
def pyIndex {α : Type} (l : List α) (i : Int) : Option α :=
  let j : Int := if i < 0 then (l.length : Int) + i else i
  if j < 0 then none else l[j.toNat]?

/-! ## Roman-numeral formatter (`number_to_roman`, FirstMaccabees.py lines 15-62) -/

/-- The thousands block: `for i in range(thousands): roman += "m"`. -/
def romanThousands (thousands : Nat) : List Char :=
  List.replicate thousands 'm'

/-- The hundreds block of `number_to_roman` (lines 23-34). -/
def romanHundreds (hundreds : Nat) : List Char :=
  if hundreds = 9 then ['c', 'm']
  else if 5 ≤ hundreds then 'd' :: List.replicate (hundreds - 5) 'c'
  else if hundreds = 4 then ['c', 'd']
  else List.replicate hundreds 'c'

/-- The tens block of `number_to_roman` (lines 37-48). -/
def romanTens (tens : Nat) : List Char :=
  if tens = 9 then ['x', 'c']
  else if 5 ≤ tens then 'l' :: List.replicate (tens - 5) 'x'
  else if tens = 4 then ['x', 'l']
  else List.replicate tens 'x'

/-- The ones block of `number_to_roman` (lines 51-61). -/
def romanOnes (num : Nat) : List Char :=
  if num = 9 then ['i', 'x']
  else if 5 ≤ num then 'v' :: List.replicate (num - 5) 'i'
  else if num = 4 then ['i', 'v']
  else List.replicate num 'i'

/-- `number_to_roman` (lines 15-62): greedy decomposition by thousands,
hundreds, tens, ones, with the subtractions `num = num - thousands * 1000`
etc. of the source kept literally. -/
def number_to_roman (num : Nat) : String :=
  let thousands := num / 1000
  let num1 := num - thousands * 1000
  let hundreds := num1 / 100
  let num2 := num1 - hundreds * 100
  let tens := num2 / 10
  let num3 := num2 - tens * 10
  String.mk (romanThousands thousands ++ romanHundreds hundreds ++
    romanTens tens ++ romanOnes num3)

/-- Value of a single Roman letter (lowercase), per the standard notation the
spec appeals to; any other character counts 0. -/
def charVal (c : Char) : Nat :=
  if c = 'i' then 1 else if c = 'v' then 5 else if c = 'x' then 10
  else if c = 'l' then 50 else if c = 'c' then 100 else if c = 'd' then 500
  else if c = 'm' then 1000 else 0

/-- Re-expansion of a Roman numeral by the standard subtractive-notation
rules (the spec's round-trip yardstick, spec §8): a letter followed by a
strictly larger letter is subtracted, otherwise added. -/
def romanValue : List Char → Int
  | [] => 0
  | [c] => (charVal c : Int)
  | c :: d :: rest =>
    (if charVal c < charVal d then -(charVal c : Int) else (charVal c : Int)) +
      romanValue (d :: rest)

/-- Head value of a numeral (0 for the empty numeral). -/
def headVal : List Char → Nat
  | [] => 0
  | c :: _ => charVal c

/-! ## Generic `re.sub` with a literal pattern

All patterns of interest that substitute a *fixed* string (the escaped
footnote marker `\[n\]` and the template anchors `\\StartOfLatin\n\n`,
`\\StartOfEnglish\n\n`) are literal-character patterns, so `re.sub` on them
is: scan left to right, replace every non-overlapping occurrence of the
pattern, continue after the replaced occurrence.  `raGo` is that scanner; a
positive first argument means "skip this many input characters" (the rest
of an occurrence already emitted). -/

def raGo (pat subst : List Char) : Nat → List Char → List Char
  | _ + 1, [] => []
  | n + 1, _ :: rest => raGo pat subst n rest
  | 0, [] => []
  | 0, c :: rest =>
    if pat.isPrefixOf (c :: rest) then
      subst ++ raGo pat subst (pat.length - 1) rest
    else
      c :: raGo pat subst 0 rest

/-- `re.sub(pat, subst, s)` for a literal pattern `pat`. -/
def replaceAll (pat subst s : List Char) : List Char :=
  raGo pat subst 0 s

/-! ## Replacement-template escape processing

A replacement argument of `re.sub` is itself escape-processed: `\\` becomes
a single backslash, any other `\x` passes through unchanged (legacy
semantics).  The group reference `\1` written literally in the source is
expanded at the call sites below; backslash-digit sequences do not occur in
this pipeline's data strings (every backslash the pipeline inserts is
doubled or followed by a letter), so no further group expansion arises. -/
def replEsc : List Char → List Char
  | '\\' :: '\\' :: rest => '\\' :: replEsc rest
  | c :: rest => c :: replEsc rest
  | [] => []

/-! ## Footnote splicing (`Chapter.add_footnotes_to_text`, lines 168-176) -/

/-- Scanner for `re.findall('\[[0-9]+\]', s)`: at `[`, take the greedy
digit run; a match needs at least one digit and a closing `]`; scanning
resumes after a match, or one character further after a failure.  A
positive first argument skips characters already consumed by a match. -/
def fmGo : Nat → List Char → List (List Char)
  | _ + 1, [] => []
  | n + 1, _ :: rest => fmGo n rest
  | 0, [] => []
  | 0, c :: rest =>
    if c = '[' then
      match rest.takeWhile Char.isDigit, rest.dropWhile Char.isDigit with
      | d :: ds, ']' :: _ =>
        ('[' :: (d :: ds) ++ [']']) :: fmGo ((d :: ds).length + 1) rest
      | _, _ => fmGo 0 rest
    else fmGo 0 rest

/-- All bracketed numeral markers of a paragraph, in occurrence order. -/
def findMarkers (s : List Char) : List (List Char) :=
  fmGo 0 s

/-- `list(set(...))`: deduplication.  Python set iteration order is
unspecified; the embedding fixes first-occurrence order. -/
def dedupGo (seen : List (List Char)) : List (List Char) → List (List Char)
  | [] => []
  | x :: xs =>
    if seen.contains x then dedupGo seen xs else x :: dedupGo (x :: seen) xs

/-- `footnotes_found = list(set(re.findall('\[[0-9]+\]', paragraph)))`. -/
def footnotes_found (paragraph : List Char) : List (List Char) :=
  dedupGo [] (findMarkers paragraph)

/-- Numeric value of a digit string (Python `int`). -/
def digitsVal (s : List Char) : Nat :=
  s.foldl (fun acc c => acc * 10 + (c.toNat - 48)) 0

/-- `int(re.sub('[\[\]]', '', m))`: strip the brackets, read the number. -/
def markerNum (m : List Char) : Nat :=
  digitsVal (m.filter (fun c => c ≠ '[' ∧ c ≠ ']'))

/-- Scanner for `re.sub('\[[0-9]+\] ', '', footnote)` (line 174): delete
every bracketed numeral marker that is followed by a space. -/
def stripGo : Nat → List Char → List Char
  | _ + 1, [] => []
  | n + 1, _ :: rest => stripGo n rest
  | 0, [] => []
  | 0, c :: rest =>
    if c = '[' then
      match rest.takeWhile Char.isDigit, rest.dropWhile Char.isDigit with
      | d :: ds, ']' :: ' ' :: _ => stripGo ((d :: ds).length + 2) rest
      | _, _ => c :: stripGo 0 rest
    else c :: stripGo 0 rest

/-- The leading `[n] ` tag of a footnote, removed. -/
def strip_note_tag (footnote : List Char) : List Char :=
  stripGo 0 footnote

/-- The replacement text `'\\\\\\\\footnote\\1{' + ... + '}'` of line 174
after template-escape processing: two literal backslashes, `footnote`, the
matched marker itself (`\1`), and the stripped footnote body in braces. -/
def footnoteDirective (m f : List Char) : List Char :=
  '\\' :: '\\' :: ("footnote".data ++ m ++ '\x7b' :: replEsc (strip_note_tag f) ++ ['\x7d'])

/-- The `for i in range(len(footnotes_found))` loop of lines 171-175: for
each distinct marker, look up `footnotes[footnote_number - 1]` (Python
indexing) and substitute every literal occurrence of the marker. -/
def spliceFootnotes (footnotes : List (List Char)) :
    List (List Char) → List Char → Except PyErr (List Char)
  | [], paragraph => .ok paragraph
  | m :: ms, paragraph =>
    match pyIndex footnotes ((markerNum m : Int) - 1) with
    | none => .error (.indexOutOfRange ((markerNum m : Int) - 1))
    | some f =>
      spliceFootnotes footnotes ms
        (replaceAll m (footnoteDirective m f) paragraph)

/-- `Chapter.add_footnotes_to_text` (lines 168-176), with the chapter's
footnote list passed explicitly. -/
def add_footnotes_to_text (footnotes : List (List Char)) (paragraph : List Char) :
    Except PyErr (List Char) :=
  if findMarkers paragraph = [] then .ok paragraph
  else spliceFootnotes footnotes (footnotes_found paragraph) paragraph

/-! ## Per-paragraph text passes (`Chapter`, lines 186-222) -/

/-- Scanner for `re.sub('([0-9]+)  ', '\\1~', ...)` (line 188): a digit run
followed by two spaces becomes the digit run followed by `~`. -/
def spNumGo : Nat → List Char → List Char
  | _ + 1, [] => []
  | n + 1, _ :: rest => spNumGo n rest
  | 0, [] => []
  | 0, c :: rest =>
    if c.isDigit then
      match rest.dropWhile Char.isDigit with
      | ' ' :: ' ' :: _ =>
        c :: rest.takeWhile Char.isDigit ++
          '~' :: spNumGo ((rest.takeWhile Char.isDigit).length + 2) rest
      | _ => c :: spNumGo 0 rest
    else c :: spNumGo 0 rest

/-- Scanner for `re.sub('  ', ' ', ...)` (line 190): every (non-overlapping)
double space becomes a single space. -/
def dblSpGo : Nat → List Char → List Char
  | _ + 1, [] => []
  | n + 1, _ :: rest => dblSpGo n rest
  | 0, [] => []
  | 0, c :: rest =>
    match c, rest with
    | ' ', ' ' :: _ => ' ' :: dblSpGo 1 rest
    | _, _ => c :: dblSpGo 0 rest

/-- `Chapter.fix_spacing_around_verse_numbers` (lines 186-191): digits plus
double space to digits plus `~`; non-breaking space to `~`; remaining double
spaces collapsed. -/
def fix_spacing_around_verse_numbers (paragraph : List Char) : List Char :=
  dblSpGo 0 ((spNumGo 0 paragraph).map (fun c => if c = '\xa0' then '~' else c))

/-- The color wrap `'\\\\\\\\textcolor{benred8}{\\1}~'` of line 195 after
template-escape processing: two literal backslashes, `textcolor{benred8}{`,
the digit run, `}~`. -/
def redWrap (num : List Char) : List Char :=
  "\\\\textcolor\x7bbenred8\x7d\x7b".data ++ num ++ ['\x7d']

/-- Scanner for `re.sub('([0-9]+)~', ..., ...)` (lines 193-196): every digit
run directly followed by `~` is wrapped in the color directive, keeping the
trailing `~`. -/
def redGo : Nat → List Char → List Char
  | _ + 1, [] => []
  | n + 1, _ :: rest => redGo n rest
  | 0, [] => []
  | 0, c :: rest =>
    if c.isDigit then
      match rest.dropWhile Char.isDigit with
      | '~' :: _ =>
        redWrap (c :: rest.takeWhile Char.isDigit) ++
          '~' :: redGo ((rest.takeWhile Char.isDigit).length + 1) rest
      | _ => c :: redGo 0 rest
    else c :: redGo 0 rest

/-- `Chapter.turn_verse_numbers_red` (lines 193-196). -/
def turn_verse_numbers_red (paragraph : List Char) : List Char :=
  redGo 0 paragraph

/-- The replacement `'\lettrine[lines=' + str(lines) + ']{\\1}{\\2} '` of
lines 200-202 after template-escape processing (`\l` passes through): one
literal backslash, the lettrine directive with the initial letter and the
rest of the word as its two arguments, then a space. -/
def lettrineDir (lines : Nat) (c : Char) (w : List Char) : List Char :=
  "\\lettrine[lines=".data ++ (toString lines).data ++ "]\x7b".data ++
    c :: "\x7d\x7b".data ++ w ++ "\x7d ".data

/-- The anchored substitution `re.sub('^1~([A-Za-z]{1})([A-Za-z]*) ', ...)`
(lines 200-202) applied to one paragraph: matches only at the start; the
digit `1`, `~`, one ASCII letter, the greedy rest of the letters, then a
space. -/
def dropcapSub (lines : Nat) (p : List Char) : List Char :=
  match p with
  | '1' :: '~' :: c :: rest =>
    if c.isAlpha then
      match rest.dropWhile Char.isAlpha with
      | ' ' :: tail => lettrineDir lines c (rest.takeWhile Char.isAlpha) ++ tail
      | _ => p
    else p
  | _ => p

/-- `Chapter.do_dropcaps` (lines 198-203): rewrites element 0 of the
paragraph list; on an empty list, `list_of_paragraphs[0]` raises
`IndexError`. -/
def do_dropcaps (lines : Nat) (list_of_paragraphs : List (List Char)) :
    Except PyErr (List (List Char)) :=
  match list_of_paragraphs with
  | [] => .error (.indexOutOfRange 0)
  | p :: rest => .ok (dropcapSub lines p :: rest)

/-- The `if self.number == 1 ... else ...` dispatch of lines 158-161: the
book's opening chapter gets a 3-line drop cap, every other chapter the
default 2. -/
def dropcapsForChapter (number : Nat) (paragraphs : List (List Char)) :
    Except PyErr (List (List Char)) :=
  if number = 1 then do_dropcaps 3 paragraphs else do_dropcaps 2 paragraphs

/-- Right single quote U+2019. -/
def rightSingleQuote : Char := Char.ofNat 0x2019

/-- Left single quote U+2018. -/
def leftSingleQuote : Char := Char.ofNat 0x2018

/-- Horizontal ellipsis U+2026. -/
def ellipsisChar : Char := Char.ofNat 0x2026

/-- Modelled from the spec: the text substituted for each special character
by `latexify_certain_ones` (lines 216-221) is built from entries of the
external `unicode_to_latex` table, which is not part of this repository.
Spec §4.4: LaTeX-equivalent escape sequences, with an extra escaped-footnote
marker sequence when processing footnote text and a trailing forced
line-break for the ellipsis.  The exact characters are irrelevant to the
claims; only the keys matter. -/
def specialCharReplacement (footnote : Bool) (c : Char) : List Char :=
  (if footnote then ['\\', '\\'] else []) ++
    (if c = rightSingleQuote then ['\\', Char.ofNat 39]
     else if c = ellipsisChar then '\\' :: "ldots".data ++ ['\\', '\\', ' ']
     else ['\\', Char.ofNat 96])

/-- `re.sub` with a single-character literal pattern: replace each
occurrence of the character by the replacement string. -/
def substChar (k : Char) (v : List Char) : List Char → List Char
  | [] => []
  | c :: rest => if c = k then v ++ substChar k v rest else c :: substChar k v rest

/-- `Chapter.latexify_certain_ones` (lines 210-222): substitute the right
single quote, the ellipsis, and the left single quote, in the insertion
order of the `ones` dict. -/
def latexify_certain_ones (footnote : Bool) (paragraph : List Char) : List Char :=
  substChar leftSingleQuote (specialCharReplacement footnote leftSingleQuote)
    (substChar ellipsisChar (specialCharReplacement footnote ellipsisChar)
      (substChar rightSingleQuote (specialCharReplacement footnote rightSingleQuote)
        paragraph))

/-- `Chapter.get_text_from_soup` (lines 152-166), with the stripped text
blocks for one language and the chapter's footnotes passed explicitly (the
markup-tree query of lines 155-156 is the out-of-scope parsed-page
boundary): spacing normalization, drop caps (3 lines for chapter 1, else
2), verse-number colorization, special-character substitution, footnote
splicing. -/
def get_text_from_soup (number : Nat) (footnotes : List (List Char))
    (paragraphs : List (List Char)) : Except PyErr (List (List Char)) := do
  let ps := paragraphs.map fix_spacing_around_verse_numbers
  let ps ← dropcapsForChapter number ps
  let ps := ps.map turn_verse_numbers_red
  let ps := ps.map (latexify_certain_ones false)
  ps.mapM (add_footnotes_to_text footnotes)

/-! ## Template compositor (`Chapter.insert_into_template`, lines 224-240,
and the reverse chapter loop of lines 270-272) -/

/-- The anchor pattern `(\\StartOfLatin\n\n)` of lines 228 and 234: one
literal backslash, the marker word, a blank line. -/
def anchorL : List Char := "\\StartOfLatin\n\n".data

/-- The anchor pattern `(\\StartOfEnglish\n\n)` of lines 231 and 237. -/
def anchorE : List Char := "\\StartOfEnglish\n\n".data

/-- `separator = '\n\\pend\\pstart\n'` (line 226): the paragraph-break
directive (`\p` passes through template-escape processing unchanged). -/
def separator : List Char := "\n\\pend\\pstart\n".data

/-- The chapter-number heading of lines 234-239 after template-escape
processing (`\\\\begin` collapses to `\begin`, `\e` and the final `\n`
literal pass through as written): a large centered Arabic chapter number. -/
def headingBlock (number : Nat) : List Char :=
  "\\begin\x7blarge\x7d\\begin\x7bcenter\x7d".data ++ (toString number).data ++
    "\\end\x7bcenter\x7d\\end\x7blarge\x7d\n".data

/-- The per-chapter data `insert_into_template` consumes: the chapter's
sequence number and its two paragraph lists. -/
structure ChapterData where
  number : Nat
  latin_pars : List (List Char)
  english_pars : List (List Char)

/-- The `for i in range(len(self.latin_pars))` loop of lines 227-233: the
indices `[-1-i]` walk both paragraph lists from the end; each iteration
inserts `separator + paragraph` (escape-processed) right after the matched
anchor (the `\\1`).  When the English list is shorter than the Latin list,
`english_pars[-1-i]` raises `IndexError`. -/
def spliceParsFromEnd : List (List Char) → List (List Char) → List Char →
    Except PyErr (List Char)
  | [], _, template => .ok template
  | _ :: _, [], _ => .error (.indexOutOfRange (-1))
  | l :: ls, e :: es, template =>
    spliceParsFromEnd ls es
      (replaceAll anchorE (anchorE ++ replEsc (separator ++ e))
        (replaceAll anchorL (anchorL ++ replEsc (separator ++ l)) template))

/-- `Chapter.insert_into_template` (lines 224-240): splice the paragraphs
in reverse order after the two anchors, then put the chapter heading
directly after each anchor, ahead of the paragraphs. -/
def insert_into_template (ch : ChapterData) (template : List Char) :
    Except PyErr (List Char) :=
  (spliceParsFromEnd ch.latin_pars.reverse ch.english_pars.reverse
      template).map
    (fun t => replaceAll anchorE (anchorE ++ headingBlock ch.number)
      (replaceAll anchorL (anchorL ++ headingBlock ch.number) t))

/-- The main loop `for i in range(len(chapters)): output =
chapters[-1-i].insert...(output)` (lines 270-272): the chapters are
processed in reverse order, last chapter first. -/
def insert_chapters_reversed : List ChapterData → List Char →
    Except PyErr (List Char)
  | [], template => .ok template
  | ch :: rest, template =>
    (insert_chapters_reversed rest template).bind (insert_into_template ch)

/-- The content a chapter contributes after the Latin anchor: its heading,
then each paragraph (escape-processed) preceded by the paragraph-break
directive. -/
def chapterLatinBlock (ch : ChapterData) : List Char :=
  headingBlock ch.number ++
    (ch.latin_pars.map (fun p => separator ++ replEsc p)).flatten

/-- The content a chapter contributes after the English anchor. -/
def chapterEnglishBlock (ch : ChapterData) : List Char :=
  headingBlock ch.number ++
    (ch.english_pars.map (fun p => separator ++ replEsc p)).flatten

/-- All chapters' Latin content, in chapter order. -/
def latinDoc (cs : List ChapterData) : List Char :=
  (cs.map chapterLatinBlock).flatten

/-- All chapters' English content, in chapter order. -/
def englishDoc (cs : List ChapterData) : List Char :=
  (cs.map chapterEnglishBlock).flatten

/-- The shape of the document during composition: prefix, Latin anchor,
Latin content, middle, English anchor, English content, suffix. -/
def docShape (t1 latin mid english t2 : List Char) : List Char :=
  t1 ++ anchorL ++ latin ++ mid ++ anchorE ++ english ++ t2

/-- A string is anchor-safe when no backslash in it is followed by `S` and
no backslash ends it: then no anchor occurrence can start inside it.  All
content this pipeline inserts (headings, separators, escape-processed
paragraphs) is anchor-safe. -/
def safeChars : List Char → Bool
  | [] => true
  | [c] => c != '\\'
  | c :: d :: rest => (c != '\\' || d != 'S') && safeChars (d :: rest)

theorem charVal_le_1000 (c : Char) : charVal c ≤ 1000 := by
  unfold charVal
  repeat' split
  all_goals omega

theorem romanValue_cons (c : Char) (l : List Char) :
    romanValue (c :: l) =
      (if charVal c < headVal l then -(charVal c : Int) else (charVal c : Int)) +
        romanValue l := by
  cases l with
  | nil => simp [romanValue, headVal]
  | cons d rest => rfl

theorem romanValue_m_cons (l : List Char) :
    romanValue ('m' :: l) = 1000 + romanValue l := by
  rw [romanValue_cons]
  have h1 : charVal 'm' = 1000 := by decide
  have h2 : headVal l ≤ 1000 := by
    cases l with
    | nil => simp [headVal]
    | cons c rest => simpa [headVal] using charVal_le_1000 c
  rw [h1]
  have : ¬ (1000 < headVal l) := by omega
  simp [this]

theorem romanValue_thousands (k : Nat) (l : List Char) :
    romanValue (romanThousands k ++ l) = 1000 * k + romanValue l := by
  induction k with
  | zero => simp [romanThousands]
  | succ n ih =>
    have : romanThousands (n + 1) = 'm' :: romanThousands n := by
      simp [romanThousands, List.replicate_succ]
    rw [this, List.cons_append, romanValue_m_cons, ih]
    push_cast
    ring

theorem roman_digits_value :
    ∀ h : Fin 10, ∀ t : Fin 10, ∀ o : Fin 10,
      romanValue (romanHundreds h.val ++ romanTens t.val ++ romanOnes o.val) =
        100 * (h.val : Int) + 10 * (t.val : Int) + (o.val : Int) := by
  decide

/-- Claim C4: for every positive integer n, `number_to_roman` returns the
standard lowercase subtractive-notation representation of n (re-expanding the
output by the subtractive-notation rules yields n again), and the literal
cases 1, 4, 9, 14, 40, 90, 444, 1994 come out as listed, with no upper
bound (thousands as repeated "m"). -/
theorem roman_numeral_c4 (n : Nat) (hpos : 0 < n) :
    romanValue (number_to_roman n).data = (n : Int) ∧
    number_to_roman 1 = "i" ∧ number_to_roman 4 = "iv" ∧
    number_to_roman 9 = "ix" ∧ number_to_roman 14 = "xiv" ∧
    number_to_roman 40 = "xl" ∧ number_to_roman 90 = "xc" ∧
    number_to_roman 444 = "cdxliv" ∧ number_to_roman 1994 = "mcmxciv" := by
  refine ⟨?_, by decide, by decide, by decide, by decide, by decide, by decide,
    by decide, by decide⟩
  unfold number_to_roman
  have hth : n - n / 1000 * 1000 = n % 1000 := by omega
  have h1 : n % 1000 < 1000 := by omega
  have hh : n % 1000 - n % 1000 / 100 * 100 = n % 1000 % 100 := by omega
  have h2 : n % 1000 % 100 < 100 := by omega
  have ht : n % 1000 % 100 - n % 1000 % 100 / 10 * 10 = n % 1000 % 100 % 10 := by
    omega
  simp only [hth, hh, ht, String.data]
  rw [List.append_assoc, List.append_assoc, romanValue_thousands]
  rw [← List.append_assoc]
  have hfin1 : n % 1000 / 100 < 10 := by omega
  have hfin2 : n % 1000 % 100 / 10 < 10 := by omega
  have hfin3 : n % 1000 % 100 % 10 < 10 := by omega
  have := roman_digits_value ⟨n % 1000 / 100, hfin1⟩ ⟨n % 1000 % 100 / 10, hfin2⟩
    ⟨n % 1000 % 100 % 10, hfin3⟩
  simp only at this
  rw [this]
  push_cast
  omega

/-- Witness for C4 at n = 1994. -/
theorem roman_numeral_c4_witness :
    romanValue (number_to_roman 1994).data = (1994 : Int) ∧
    number_to_roman 1 = "i" ∧ number_to_roman 4 = "iv" ∧
    number_to_roman 9 = "ix" ∧ number_to_roman 14 = "xiv" ∧
    number_to_roman 40 = "xl" ∧ number_to_roman 90 = "xc" ∧
    number_to_roman 444 = "cdxliv" ∧ number_to_roman 1994 = "mcmxciv" :=
  roman_numeral_c4 1994 (by decide)

/-- Claim C5 is a code bug: the source's `number_to_roman` silently returns
the empty string on input 0 (every loop body runs zero times and every
branch appends nothing), instead of failing with an `InvalidArgument` kind
of error as the claim requires. -/
theorem roman_zero_empty_c5 : number_to_roman 0 = "" := by decide

/-! Lemmas about the literal-pattern substitution scanner `raGo`. -/

theorem isPrefixOf_iff (p : List Char) :
    ∀ s : List Char, p.isPrefixOf s = true ↔ ∃ t, s = p ++ t := by
  induction p with
  | nil => intro s; simp [List.isPrefixOf]
  | cons a p ih =>
    intro s
    cases s with
    | nil => simp [List.isPrefixOf]
    | cons b s =>
      simp only [List.isPrefixOf, Bool.and_eq_true, beq_iff_eq, ih,
        List.cons_append, List.cons.injEq]
      constructor
      · rintro ⟨hab, t, ht⟩; exact ⟨t, hab.symm, ht⟩
      · rintro ⟨t, hab, ht⟩; exact ⟨hab.symm, t, ht⟩

theorem raGo_skip (pat subst : List Char) :
    ∀ n s, raGo pat subst n s = raGo pat subst 0 (s.drop n) := by
  intro n
  induction n with
  | zero => intro s; simp
  | succ k ih =>
    intro s
    cases s with
    | nil => simp [raGo]
    | cons c rest => simpa [raGo] using ih rest

theorem raGo_match (pat subst : List Char) (c : Char) (rest : List Char)
    (hp : pat ≠ []) (h : pat.isPrefixOf (c :: rest) = true) :
    raGo pat subst 0 (c :: rest) =
      subst ++ raGo pat subst 0 ((c :: rest).drop pat.length) := by
  have hlen : 1 ≤ pat.length := by
    cases pat with
    | nil => exact absurd rfl hp
    | cons a t => simp
  have hdrop : rest.drop (pat.length - 1) = (c :: rest).drop pat.length := by
    cases hn : pat.length with
    | zero => omega
    | succ k => simp [hn, List.drop_succ_cons]
  simp only [raGo, h, if_true, raGo_skip pat subst (pat.length - 1) rest, hdrop]

theorem raGo_nomatch (pat subst : List Char) (c : Char) (rest : List Char)
    (h : pat.isPrefixOf (c :: rest) = false) :
    raGo pat subst 0 (c :: rest) = c :: raGo pat subst 0 rest := by
  simp [raGo, h]

/-- If the pattern occurs nowhere in `s`, the substitution is the identity. -/
theorem replaceAll_no_occurrence (pat subst : List Char) (hp : pat ≠ []) :
    ∀ s : List Char, (∀ a b : List Char, s ≠ a ++ pat ++ b) →
      replaceAll pat subst s = s := by
  intro s
  induction s with
  | nil => intro _; rfl
  | cons c rest ih =>
    intro hno
    have hpref : pat.isPrefixOf (c :: rest) = false := by
      by_contra h
      have h' : pat.isPrefixOf (c :: rest) = true := by
        revert h; cases pat.isPrefixOf (c :: rest) <;> simp
      obtain ⟨t, ht⟩ := (isPrefixOf_iff pat (c :: rest)).mp h'
      exact hno [] t (by simpa using ht)
    unfold replaceAll
    rw [raGo_nomatch pat subst c rest hpref]
    have : replaceAll pat subst rest = rest := by
      apply ih
      intro a b hab
      exact hno (c :: a) b (by simp [hab])
    simpa [replaceAll] using this

/-- First-occurrence behavior of the scanner: when no occurrence of the
pattern starts before position `t1.length`, the occurrence at `t1.length`
is replaced and scanning resumes after it. -/
theorem replaceAll_first (pat subst : List Char) (hp : pat ≠ []) :
    ∀ t1 t2 : List Char,
      (∀ i, i < t1.length → pat.isPrefixOf ((t1 ++ pat ++ t2).drop i) = false) →
      replaceAll pat subst (t1 ++ pat ++ t2) =
        t1 ++ subst ++ replaceAll pat subst t2 := by
  intro t1
  induction t1 with
  | nil =>
    intro t2 _
    cases hpat : pat with
    | nil => exact absurd hpat hp
    | cons a p =>
      have hpref : (a :: p).isPrefixOf (a :: (p ++ t2)) = true :=
        (isPrefixOf_iff (a :: p) (a :: (p ++ t2))).mpr ⟨t2, by simp⟩
      unfold replaceAll
      rw [List.nil_append, List.cons_append, raGo_match _ _ _ _ (by simp) hpref,
        ← List.cons_append, List.drop_left]
      simp [replaceAll]
  | cons c t1 ih =>
    intro t2 hfirst
    have h0 : pat.isPrefixOf ((c :: t1) ++ pat ++ t2) = false := by
      simpa using hfirst 0 (by simp)
    rw [List.cons_append, List.cons_append] at h0 ⊢
    unfold replaceAll
    rw [raGo_nomatch pat subst _ _ h0]
    have := ih t2 (by
      intro i hi
      have := hfirst (i + 1) (by simpa using Nat.succ_lt_succ hi)
      simpa using this)
    simpa [replaceAll] using this

/-- If additionally the only occurrence of the pattern is the designated
one, the substitution rewrites exactly that occurrence. -/
theorem replaceAll_unique (pat subst t1 t2 : List Char) (hp : pat ≠ [])
    (hu : ∀ a b : List Char, t1 ++ pat ++ t2 = a ++ pat ++ b → a = t1) :
    replaceAll pat subst (t1 ++ pat ++ t2) = t1 ++ subst ++ t2 := by
  have hfirst : ∀ i, i < t1.length →
      pat.isPrefixOf ((t1 ++ pat ++ t2).drop i) = false := by
    intro i hi
    by_contra h
    have h' : pat.isPrefixOf ((t1 ++ pat ++ t2).drop i) = true := by
      revert h; cases pat.isPrefixOf ((t1 ++ pat ++ t2).drop i) <;> simp
    obtain ⟨t, ht⟩ := (isPrefixOf_iff _ _).mp h'
    have hs : t1 ++ pat ++ t2 = (t1 ++ pat ++ t2).take i ++ pat ++ t := by
      conv_lhs => rw [← List.take_append_drop i (t1 ++ pat ++ t2), ht]
      simp [List.append_assoc]
    have := hu _ _ hs
    have hlen : ((t1 ++ pat ++ t2).take i).length = i := by
      rw [List.length_take]
      have : i < (t1 ++ pat ++ t2).length := by
        simp only [List.length_append]
        omega
      omega
    rw [this] at hlen
    omega
  rw [replaceAll_first pat subst hp t1 t2 hfirst]
  have : replaceAll pat subst t2 = t2 := by
    apply replaceAll_no_occurrence pat subst hp
    intro a b hab
    have := hu (t1 ++ pat ++ a) b (by rw [hab]; simp)
    have hlen := congrArg List.length this
    simp only [List.length_append] at hlen
    have : 1 ≤ pat.length := by
      cases pat with
      | nil => exact absurd rfl hp
      | cons x xs => simp
    omega
  rw [this]

theorem mem_dedupGo (x : List Char) :
    ∀ l seen : List (List Char), x ∈ dedupGo seen l ↔ x ∈ l ∧ x ∉ seen := by
  intro l
  induction l with
  | nil => intro seen; simp [dedupGo]
  | cons y ys ih =>
    intro seen
    rw [dedupGo]
    by_cases hy : y ∈ seen
    · rw [if_pos (List.elem_iff.mpr hy), ih]
      constructor
      · rintro ⟨h1, h2⟩; exact ⟨List.mem_cons_of_mem y h1, h2⟩
      · rintro ⟨h1, h2⟩
        rcases List.mem_cons.mp h1 with rfl | h
        · exact absurd hy h2
        · exact ⟨h, h2⟩
    · rw [if_neg (fun hc => hy (List.elem_iff.mp hc))]
      simp only [List.mem_cons, ih, List.mem_cons]
      constructor
      · rintro (rfl | ⟨h1, h2⟩)
        · exact ⟨Or.inl rfl, hy⟩
        · exact ⟨Or.inr h1, fun h => h2 (Or.inr h)⟩
      · rintro ⟨rfl | h1, h2⟩
        · exact Or.inl rfl
        · by_cases hxy : x = y
          · exact Or.inl hxy
          · refine Or.inr ⟨h1, ?_⟩
            rintro (h | h)
            · exact hxy h
            · exact h2 h

theorem nodup_dedupGo :
    ∀ l seen : List (List Char), (dedupGo seen l).Nodup := by
  intro l
  induction l with
  | nil => intro seen; simp [dedupGo]
  | cons y ys ih =>
    intro seen
    rw [dedupGo]
    split
    · exact ih seen
    · refine List.nodup_cons.mpr ⟨?_, ih (y :: seen)⟩
      intro hmem
      exact ((mem_dedupGo y ys (y :: seen)).mp hmem).2 (List.mem_cons_self y seen)

/-- Every marker found by the scanner is nonempty (it starts with `[`). -/
theorem fmGo_ne_nil : ∀ (s : List Char) (k : Nat) (m : List Char),
    m ∈ fmGo k s → m ≠ [] := by
  intro s
  induction s with
  | nil => intro k m hm; cases k <;> simp [fmGo] at hm
  | cons c rest ih =>
    intro k m hm
    cases k with
    | succ n => exact ih n m (by simpa [fmGo] using hm)
    | zero =>
      rw [fmGo] at hm
      split at hm
      · split at hm
        · rcases List.mem_cons.mp hm with rfl | hmm
          · simp
          · exact ih _ m hmm
        · exact ih 0 m hm
      · exact ih 0 m hm

theorem pyIndex_of_pos {α : Type} (l : List α) (n : Nat) (h : 1 ≤ n) :
    pyIndex l ((n : Int) - 1) = l[n - 1]? := by
  unfold pyIndex
  have h1 : ¬ ((n : Int) - 1 < 0) := by omega
  simp only [h1, if_false, if_neg h1]
  congr 1
  omega

theorem pyIndex_oob {α : Type} (l : List α) (n : Nat) (h : l.length < n) :
    pyIndex l ((n : Int) - 1) = none := by
  rw [pyIndex_of_pos l n (by omega)]
  exact List.getElem?_eq_none (by omega)

theorem spliceFootnotes_oob (fs : List (List Char)) :
    ∀ (ms : List (List Char)) (par : List Char),
      (∃ m ∈ ms, fs.length < markerNum m) →
      ∃ i, spliceFootnotes fs ms par = .error (.indexOutOfRange i) := by
  intro ms
  induction ms with
  | nil => rintro par ⟨m, hm, _⟩; exact absurd hm (List.not_mem_nil m)
  | cons m' ms' ih =>
    rintro par ⟨m, hm, hnum⟩
    rw [spliceFootnotes]
    rcases hpy : pyIndex fs ((markerNum m' : Int) - 1) with _ | f
    · exact ⟨(markerNum m' : Int) - 1, rfl⟩
    · rcases List.mem_cons.mp hm with rfl | hmem
      · rw [pyIndex_oob fs (markerNum m) hnum] at hpy
        exact absurd hpy (by simp)
      · exact ih _ ⟨m, hmem, hnum⟩

/-- Claim C2: a paragraph containing a bracketed marker whose number exceeds
the length of the chapter's footnote list makes the footnote-splicing
operation fail fast with an `IndexOutOfRange` kind of error (the out-of-range
list access `footnotes[footnote_number - 1]`); the paragraph is not silently
emitted. -/
theorem footnote_out_of_range_c2 (fs : List (List Char)) (p m : List Char)
    (hm : m ∈ findMarkers p) (hnum : fs.length < markerNum m) :
    ∃ i, add_footnotes_to_text fs p = .error (.indexOutOfRange i) := by
  have hne : findMarkers p ≠ [] := by
    intro h
    rw [h] at hm
    exact List.not_mem_nil m hm
  rw [add_footnotes_to_text, if_neg hne]
  apply spliceFootnotes_oob
  exact ⟨m, (mem_dedupGo m (findMarkers p) []).mpr ⟨hm, List.not_mem_nil m⟩, hnum⟩

/-- Witness for C2: marker `[3]` with only two footnotes raises
`IndexOutOfRange`. -/
theorem footnote_out_of_range_c2_witness :
    ∃ i, add_footnotes_to_text ["[1] First note.".data, "[2] Second note.".data]
      "Lorem [1] ipsum [3].".data = .error (.indexOutOfRange i) :=
  footnote_out_of_range_c2 ["[1] First note.".data, "[2] Second note.".data]
    "Lorem [1] ipsum [3].".data "[3]".data (by decide) (by decide)

/-- Claim C1: each distinct bracketed numeral marker of a paragraph is
processed exactly once (the found markers are deduplicated), and its first
occurrence is replaced by a footnote-insertion directive whose body is the
n-th footnote with its leading `[n] ` tag stripped; on the spec's example
paragraph the two bodies land at the positions of `[1]` and `[2]`. -/
theorem footnote_splicing_c1 (fs : List (List Char)) (a b m f : List Char)
    (hmarkers : footnotes_found (a ++ m ++ b) = [m])
    (hnum : 1 ≤ markerNum m)
    (hf : fs[markerNum m - 1]? = some f)
    (hfirst : ∀ i, i < a.length →
      m.isPrefixOf ((a ++ m ++ b).drop i) = false) :
    add_footnotes_to_text fs (a ++ m ++ b) =
      .ok (a ++ footnoteDirective m f ++
        replaceAll m (footnoteDirective m f) b) ∧
    (∀ q : List Char, (footnotes_found q).Nodup) ∧
    add_footnotes_to_text ["[1] First note.".data, "[2] Second note.".data]
      "Lorem [1] ipsum [2].".data =
      .ok ("Lorem \\\\footnote[1]\x7bFirst note.\x7d ipsum \\\\footnote[2]\x7bSecond note.\x7d.".data) := by
  refine ⟨?_, fun q => nodup_dedupGo (findMarkers q) [], by rfl⟩
  have hmem : m ∈ findMarkers (a ++ m ++ b) := by
    have : m ∈ footnotes_found (a ++ m ++ b) := by rw [hmarkers]; simp
    exact ((mem_dedupGo m _ []).mp this).1
  have hne : findMarkers (a ++ m ++ b) ≠ [] := by
    intro h
    rw [h] at hmem
    exact List.not_mem_nil m hmem
  have hmne : m ≠ [] := fmGo_ne_nil (a ++ m ++ b) 0 m hmem
  rw [add_footnotes_to_text, if_neg hne]
  show spliceFootnotes fs (footnotes_found (a ++ m ++ b)) (a ++ m ++ b) = _
  rw [hmarkers, spliceFootnotes, pyIndex_of_pos fs (markerNum m) hnum, hf]
  show Except.ok (replaceAll m (footnoteDirective m f) (a ++ m ++ b)) = _
  rw [replaceAll_first m (footnoteDirective m f) hmne a b hfirst]

/-- Witness for C1: a paragraph with the single distinct marker `[1]`. -/
theorem footnote_splicing_c1_witness :
    add_footnotes_to_text ["[1] A note.".data] "Ante [1] post.".data =
      .ok ("Ante ".data ++ footnoteDirective "[1]".data "[1] A note.".data ++
        replaceAll "[1]".data
          (footnoteDirective "[1]".data "[1] A note.".data) " post.".data) ∧
    (∀ q : List Char, (footnotes_found q).Nodup) ∧
    add_footnotes_to_text ["[1] First note.".data, "[2] Second note.".data]
      "Lorem [1] ipsum [2].".data =
      .ok ("Lorem \\\\footnote[1]\x7bFirst note.\x7d ipsum \\\\footnote[2]\x7bSecond note.\x7d.".data) := by
  have := footnote_splicing_c1 ["[1] A note.".data]
    "Ante ".data " post.".data "[1]".data "[1] A note.".data
    (by decide) (by decide) (by decide) (by decide)
  simpa using this

/-- Claim C3 is a code bug: a marker `[0]` is *not* left unexpanded.  With a
nonempty footnote list, `footnotes[0 - 1]` is Python negative indexing and
returns the *last* footnote, so the code fabricates a footnote body for
`[0]` (here the text of footnote 1) instead of leaving the marker text
unchanged. -/
theorem footnote_zero_fabricates_c3 :
    add_footnotes_to_text ["[1] Only note.".data] "See [0].".data =
      .ok ("See \\\\footnote[0]\x7bOnly note.\x7d.".data) := by rfl

/-! Lemmas about the per-paragraph passes. -/

theorem takeWhile_append_all (p : Char → Bool) :
    ∀ l1 l2 : List Char, (∀ a ∈ l1, p a = true) →
      (l1 ++ l2).takeWhile p = l1 ++ l2.takeWhile p := by
  intro l1
  induction l1 with
  | nil => intro l2 _; simp
  | cons x l1 ih =>
    intro l2 h
    have hx : p x = true := h x (by simp)
    simp only [List.cons_append, List.takeWhile_cons, hx, if_true]
    rw [ih l2 (fun a ha => h a (by simp [ha]))]

theorem dropWhile_append_all (p : Char → Bool) :
    ∀ l1 l2 : List Char, (∀ a ∈ l1, p a = true) →
      (l1 ++ l2).dropWhile p = l2.dropWhile p := by
  intro l1
  induction l1 with
  | nil => intro l2 _; simp
  | cons x l1 ih =>
    intro l2 h
    have hx : p x = true := h x (by simp)
    simp only [List.cons_append, List.dropWhile_cons, hx, if_true]
    exact ih l2 (fun a ha => h a (by simp [ha]))

/-- Claim C6: in each language's paragraph list only the first paragraph is
rewritten; when it starts with verse marker `1`, the `~` space, and a word,
the word's first letter becomes a lettrine directive over N lines with the
rest of the word as second argument and everything after the word's
trailing space unchanged, where N is 3 for the book's opening chapter
(`number = 1`) and 2 otherwise. -/
theorem dropcap_pass_c6 (number : Nat) (c : Char) (w tail : List Char)
    (rest : List (List Char)) (hc : c.isAlpha = true)
    (hw : ∀ x ∈ w, x.isAlpha = true) :
    dropcapsForChapter number (('1' :: '~' :: c :: (w ++ ' ' :: tail)) :: rest) =
      .ok ((lettrineDir (if number = 1 then 3 else 2) c w ++ tail) :: rest) := by
  have hsub : ∀ lines : Nat,
      dropcapSub lines ('1' :: '~' :: c :: (w ++ ' ' :: tail)) =
        lettrineDir lines c w ++ tail := by
    intro lines
    rw [dropcapSub, if_pos hc, dropWhile_append_all Char.isAlpha w (' ' :: tail) hw,
      takeWhile_append_all Char.isAlpha w (' ' :: tail) hw]
    have hsp : Char.isAlpha ' ' = false := by decide
    simp [List.dropWhile_cons, List.takeWhile_cons, hsp]
  unfold dropcapsForChapter
  by_cases hn : number = 1 <;>
    simp [hn, do_dropcaps, hsub]

/-- Witness for C6 on the spec's example first paragraph, for the opening
chapter and for a later chapter. -/
theorem dropcap_pass_c6_witness :
    dropcapsForChapter 1 ["1~Et factum est".data] =
      .ok [(lettrineDir 3 'E' ['t'] ++ "factum est".data)] ∧
    dropcapsForChapter 5 ["1~Et factum est".data] =
      .ok [(lettrineDir 2 'E' ['t'] ++ "factum est".data)] := by
  constructor
  · have := dropcap_pass_c6 1 'E' ['t'] "factum est".data [] (by decide)
      (by decide)
    simpa using this
  · have := dropcap_pass_c6 5 'E' ['t'] "factum est".data [] (by decide)
      (by decide)
    simpa using this

/-- Claim C10: the drop-cap pass subscripts element 0 unconditionally, so a
language that yields zero paragraph blocks makes text extraction fail with
an index error rather than return an empty list; on a non-empty list the
drop-cap pass always succeeds. -/
theorem empty_paragraphs_c10 (number : Nat) (footnotes : List (List Char)) :
    get_text_from_soup number footnotes [] = .error (.indexOutOfRange 0) ∧
    (∀ paragraphs : List (List Char), paragraphs ≠ [] →
      ∃ qs, dropcapsForChapter number paragraphs = .ok qs) := by
  constructor
  · unfold get_text_from_soup dropcapsForChapter do_dropcaps
    by_cases hn : number = 1 <;> simp [hn, Bind.bind, Except.bind]
  · intro ps hps
    cases ps with
    | nil => exact absurd rfl hps
    | cons p rest =>
      unfold dropcapsForChapter do_dropcaps
      by_cases hn : number = 1 <;> simp [hn]

/-- Witness for C10. -/
theorem empty_paragraphs_c10_witness :
    get_text_from_soup 2 [] [] = .error (.indexOutOfRange 0) ∧
    ∃ qs, dropcapsForChapter 2 ["1~Et".data] = .ok qs :=
  ⟨(empty_paragraphs_c10 2 []).1,
    (empty_paragraphs_c10 2 []).2 ["1~Et".data] (by simp)⟩

theorem substChar_not_mem (k : Char) (v : List Char) :
    ∀ s : List Char, k ∉ s → substChar k v s = s := by
  intro s
  induction s with
  | nil => intro _; rfl
  | cons c rest ih =>
    intro h
    have hck : ¬ (c = k) := fun hc => h (by simp [hc])
    rw [substChar, if_neg hck, ih (fun hm => h (by simp [hm]))]

/-- Claim C9: on inputs free of the three source characters (right single
quote U+2019, left single quote U+2018, ellipsis U+2026) the
special-character substitution pass is idempotent: applying it twice is the
same as applying it once. -/
theorem latexify_idempotent_c9 (footnote : Bool) (s : List Char)
    (h1 : rightSingleQuote ∉ s) (h2 : leftSingleQuote ∉ s)
    (h3 : ellipsisChar ∉ s) :
    latexify_certain_ones footnote (latexify_certain_ones footnote s) =
      latexify_certain_ones footnote s := by
  have hid : latexify_certain_ones footnote s = s := by
    unfold latexify_certain_ones
    rw [substChar_not_mem _ _ s h1, substChar_not_mem _ _ s h3,
      substChar_not_mem _ _ s h2]
  rw [hid, hid]

/-- Witness for C9. -/
theorem latexify_idempotent_c9_witness :
    latexify_certain_ones false (latexify_certain_ones false "Lorem ipsum.".data) =
      latexify_certain_ones false "Lorem ipsum.".data :=
  latexify_idempotent_c9 false "Lorem ipsum.".data (by decide) (by decide)
    (by decide)

theorem redGo_skip : ∀ (n : Nat) (s : List Char),
    redGo n s = redGo 0 (s.drop n) := by
  intro n
  induction n with
  | zero => intro s; simp
  | succ k ih =>
    intro s
    cases s with
    | nil => simp [redGo]
    | cons c rest => simpa [redGo] using ih rest

theorem redGo_cons_nondigit (c : Char) (s : List Char) (h : c.isDigit = false) :
    redGo 0 (c :: s) = c :: redGo 0 s := by
  rw [redGo, if_neg (by simp [h])]

theorem redGo_cons_digit_tilde (c : Char) (s t : List Char)
    (hc : c.isDigit = true) (hdw : s.dropWhile Char.isDigit = '~' :: t) :
    redGo 0 (c :: s) =
      redWrap (c :: s.takeWhile Char.isDigit) ++ '~' :: redGo 0 t := by
  have hsplit : s = s.takeWhile Char.isDigit ++ '~' :: t := by
    conv_lhs => rw [← List.takeWhile_append_dropWhile Char.isDigit s, hdw]
  have hdrop : s.drop ((s.takeWhile Char.isDigit).length + 1) = t := by
    set tw := s.takeWhile Char.isDigit with htw
    have h2 : tw ++ '~' :: t = (tw ++ ['~']) ++ t := by simp
    have hlen : tw.length + 1 = (tw ++ ['~']).length := by simp
    rw [hsplit, h2, hlen, List.drop_left]
  rw [redGo, if_pos hc, hdw, redGo_skip, hdrop]
  rfl

theorem redGo_cons_digit_other (c : Char) (s : List Char)
    (hc : c.isDigit = true)
    (hdw : ∀ t : List Char, s.dropWhile Char.isDigit ≠ '~' :: t) :
    redGo 0 (c :: s) = c :: redGo 0 s := by
  rw [redGo, if_pos hc]
  split
  · rename_i t heq
    exact absurd heq (hdw t)
  · rfl

theorem dropWhile_append_stop (p : Char → Bool) :
    ∀ l1 l2 : List Char, l1.dropWhile p ≠ [] →
      (l1 ++ l2).takeWhile p = l1.takeWhile p ∧
        (l1 ++ l2).dropWhile p = l1.dropWhile p ++ l2 := by
  intro l1
  induction l1 with
  | nil => intro l2 h; exact absurd rfl h
  | cons x l1 ih =>
    intro l2 h
    by_cases hx : p x = true
    · have hdw : (x :: l1).dropWhile p = l1.dropWhile p := by
        simp [List.dropWhile_cons, hx]
      rw [hdw] at h
      have := ih l2 h
      constructor
      · simp only [List.cons_append, List.takeWhile_cons, hx, if_true]
        rw [this.1]
      · simp only [List.cons_append, List.dropWhile_cons, hx, if_true, hdw]
        exact this.2
    · have hx' : p x = false := by
        revert hx; cases p x <;> simp
      constructor
      · simp [List.takeWhile_cons, hx']
      · simp [List.dropWhile_cons, hx']

theorem redGo_split (run b : List Char) (hrun : run ≠ [])
    (hdig : ∀ d ∈ run, d.isDigit = true) :
    ∀ (N : Nat) (a : List Char), a.length ≤ N →
      (∀ x, a.getLast? = some x → x.isDigit = false) →
      redGo 0 (a ++ run ++ '~' :: b) =
        redGo 0 a ++ redWrap run ++ '~' :: redGo 0 b := by
  have base : redGo 0 ([] ++ run ++ '~' :: b) =
      redGo 0 [] ++ redWrap run ++ '~' :: redGo 0 b := by
    cases run with
    | nil => exact absurd rfl hrun
    | cons r rs =>
      have hr : r.isDigit = true := hdig r (by simp)
      have hrs : ∀ d ∈ rs, d.isDigit = true := fun d hd => hdig d (by simp [hd])
      have htw : (rs ++ '~' :: b).takeWhile Char.isDigit = rs := by
        rw [takeWhile_append_all Char.isDigit rs ('~' :: b) hrs]
        simp [List.takeWhile_cons]
      have hdw : (rs ++ '~' :: b).dropWhile Char.isDigit = '~' :: b := by
        rw [dropWhile_append_all Char.isDigit rs ('~' :: b) hrs]
        simp [List.dropWhile_cons]
      simp only [List.nil_append, List.cons_append]
      rw [redGo_cons_digit_tilde r (rs ++ '~' :: b) b hr hdw, htw]
      rfl
  intro N
  induction N with
  | zero =>
    intro a ha _
    have : a = [] := List.length_eq_zero.mp (by omega)
    subst this
    exact base
  | succ N ih =>
    intro a ha hlast
    cases a with
    | nil => exact base
    | cons c a' =>
      by_cases hcd : c.isDigit = true
      · have ha' : a' ≠ [] := by
          intro h
          subst h
          have := hlast c (by simp)
          rw [hcd] at this
          exact Bool.noConfusion this
        have hlast' : ∀ x, a'.getLast? = some x → x.isDigit = false := by
          intro x hx
          apply hlast
          rw [List.getLast?_cons, hx]
          simp [Option.getD]
        have hdwne : a'.dropWhile Char.isDigit ≠ [] := by
          intro hnil
          have hall := List.dropWhile_eq_nil_iff.mp hnil
          have hlx : a'.getLast? = some (a'.getLast ha') :=
            List.getLast?_eq_getLast a' ha'
          have := hlast' (a'.getLast ha') hlx
          rw [hall (a'.getLast ha') (List.getLast_mem ha')] at this
          exact Bool.noConfusion this
        obtain ⟨htw_all, hdw_all⟩ :=
          dropWhile_append_stop Char.isDigit a' (run ++ '~' :: b) hdwne
        rcases hdw : a'.dropWhile Char.isDigit with _ | ⟨d, dtail⟩
        · exact absurd hdw hdwne
        have hd : d.isDigit = false := by
          have := List.head?_dropWhile_not Char.isDigit a'
          rw [hdw] at this
          simpa using this
        rw [hdw] at hdw_all
        have hlen' : a'.length ≤ N := by
          simp only [List.length_cons] at ha
          omega
        by_cases hdt : d = '~'
        · subst hdt
          have hdtail_len : dtail.length ≤ N := by
            have h1 : ('~' :: dtail).length ≤ a'.length := by
              rw [← hdw]
              exact (List.dropWhile_sublist (l := a') (p := Char.isDigit)).length_le
            simp only [List.length_cons] at h1
            omega
          have hlast_dt : ∀ x, dtail.getLast? = some x → x.isDigit = false := by
            intro x hx
            have hdtne : dtail ≠ [] := by
              intro h
              rw [h] at hx
              exact Option.noConfusion hx
            apply hlast'
            have hsp : a' = a'.takeWhile Char.isDigit ++ '~' :: dtail := by
              conv_lhs =>
                rw [← List.takeWhile_append_dropWhile Char.isDigit a', hdw]
            rw [hsp, List.getLast?_append_of_ne_nil _ (by simp),
              List.getLast?_cons, hx]
            simp [Option.getD]
          have lhs_eq : redGo 0 ((c :: a') ++ run ++ '~' :: b) =
              redWrap (c :: a'.takeWhile Char.isDigit) ++
                '~' :: redGo 0 (dtail ++ run ++ '~' :: b) := by
            have : (c :: a') ++ run ++ '~' :: b =
                c :: (a' ++ (run ++ '~' :: b)) := by simp
            rw [this]
            rw [redGo_cons_digit_tilde c (a' ++ (run ++ '~' :: b))
              (dtail ++ (run ++ '~' :: b)) hcd (by rw [hdw_all]; rfl), htw_all]
            simp [List.append_assoc]
          have rhs_eq : redGo 0 (c :: a') =
              redWrap (c :: a'.takeWhile Char.isDigit) ++ '~' :: redGo 0 dtail :=
            redGo_cons_digit_tilde c a' dtail hcd hdw
          rw [lhs_eq, rhs_eq, ih dtail hdtail_len hlast_dt]
          simp [List.append_assoc]
        · have hno_all : ∀ t : List Char,
              (a' ++ (run ++ '~' :: b)).dropWhile Char.isDigit ≠ '~' :: t := by
            intro t h
            rw [hdw_all] at h
            injection h with h1 _
            exact hdt h1
          have hno : ∀ t : List Char,
              a'.dropWhile Char.isDigit ≠ '~' :: t := by
            intro t h
            rw [hdw] at h
            injection h with h1 _
            exact hdt h1
          have lhs_eq : redGo 0 ((c :: a') ++ run ++ '~' :: b) =
              c :: redGo 0 (a' ++ run ++ '~' :: b) := by
            have : (c :: a') ++ run ++ '~' :: b =
                c :: (a' ++ (run ++ '~' :: b)) := by simp
            rw [this, redGo_cons_digit_other c _ hcd hno_all]
            simp [List.append_assoc]
          rw [lhs_eq, redGo_cons_digit_other c a' hcd hno,
            ih a' hlen' hlast']
          simp
      · have hcd' : c.isDigit = false := by
          revert hcd; cases c.isDigit <;> simp
        have hlast'' : ∀ x, a'.getLast? = some x → x.isDigit = false := by
          intro x hx
          apply hlast
          rw [List.getLast?_cons, hx]
          simp [Option.getD]
        have hlen' : a'.length ≤ N := by
          simp only [List.length_cons] at ha
          omega
        have : (c :: a') ++ run ++ '~' :: b =
            c :: (a' ++ run ++ '~' :: b) := by simp
        rw [this, redGo_cons_nondigit c _ hcd',
          redGo_cons_nondigit c a' hcd', ih a' hlen' hlast'']
        simp

/-- Claim C8: in a string containing a normalized digit-run-plus-`~` pair
(the run complete on the left: the preceding character, if any, is not a
digit), the output wraps exactly that number in one `textcolor{benred8}`
directive — the wrap is inserted once, not re-wrapped — and the `~` marker
is preserved immediately after the closing brace. -/
theorem verse_color_c8 (a run b : List Char) (hrun : run ≠ [])
    (hdig : ∀ d ∈ run, d.isDigit = true)
    (hlast : ∀ x, a.getLast? = some x → x.isDigit = false) :
    turn_verse_numbers_red (a ++ run ++ '~' :: b) =
      turn_verse_numbers_red a ++ redWrap run ++
        '~' :: turn_verse_numbers_red b := by
  unfold turn_verse_numbers_red
  exact redGo_split run b hrun hdig a.length a (Nat.le_refl _) hlast

/-- Witness for C8: one verse number in running text. -/
theorem verse_color_c8_witness :
    turn_verse_numbers_red ("dixit " ++ "12" ++ "~Et factum").data =
      turn_verse_numbers_red "dixit ".data ++ redWrap "12".data ++
        '~' :: turn_verse_numbers_red "Et factum".data := by
  have := verse_color_c8 "dixit ".data "12".data "Et factum".data
    (by decide) (by decide) (by decide)
  simpa using this

/-! Lemmas about anchor safety and the template compositor. -/

theorem safeChars_cons (c : Char) (l : List Char) (h : safeChars (c :: l) = true) :
    safeChars l = true := by
  cases l with
  | nil => rfl
  | cons d rest =>
    rw [safeChars, Bool.and_eq_true] at h
    exact h.2

theorem safeChars_append :
    ∀ x y : List Char, safeChars x = true → safeChars y = true →
      safeChars (x ++ y) = true := by
  intro x
  induction x with
  | nil => intro y _ hy; simpa using hy
  | cons c x ih =>
    intro y hx hy
    cases x with
    | nil =>
      cases y with
      | nil => simpa using hx
      | cons d ytail =>
        have hc : (c != '\\') = true := by simpa [safeChars] using hx
        have hcd : (c != '\\' || d != 'S') = true := by
          simp only [Bool.or_eq_true]
          exact Or.inl hc
        simpa [safeChars, hcd] using hy
    | cons d xtail =>
      rw [safeChars, Bool.and_eq_true] at hx
      have := ih y hx.2 hy
      simpa [safeChars, hx.1] using this

theorem safeChars_no_backslash :
    ∀ s : List Char, (∀ c ∈ s, ¬ (c = '\\')) → safeChars s = true := by
  intro s
  induction s with
  | nil => intro _; rfl
  | cons c rest ih =>
    intro h
    have hc : (c != '\\') = true := by
      simp only [bne_iff_ne, ne_eq]
      exact h c (by simp)
    cases rest with
    | nil => simpa [safeChars] using hc
    | cons d rtail =>
      rw [safeChars, Bool.and_eq_true]
      exact ⟨by simp [Bool.or_eq_true, hc], ih (fun x hx => h x (by simp [hx]))⟩

/-- In a safe string, a backslash is always followed (inside the string) by
a character other than `S`. -/
theorem safeChars_getElem :
    ∀ (s : List Char) (q : Nat), safeChars s = true → s[q]? = some '\\' →
      ∃ d : Char, s[q + 1]? = some d ∧ ¬ (d = 'S') := by
  intro s
  induction s with
  | nil => intro q _ h; simp at h
  | cons c rest ih =>
    intro q hs h
    cases q with
    | zero =>
      simp only [List.getElem?_cons_zero, Option.some.injEq] at h
      subst h
      cases rest with
      | nil => simp [safeChars] at hs
      | cons d rtail =>
        rw [safeChars, Bool.and_eq_true, Bool.or_eq_true] at hs
        rcases hs.1 with hbad | hd
        · simp at hbad
        · exact ⟨d, by simp, by simpa using hd⟩
    | succ q' =>
      have := ih q' (safeChars_cons c rest hs) (by simpa using h)
      obtain ⟨d, hd1, hd2⟩ := this
      exact ⟨d, by simpa using hd1, hd2⟩

/-- The characters of an occurrence: `s = a ++ pat ++ b` pins down the
characters of `s` at positions `a.length + j`. -/
theorem occ_chars (s a pat b : List Char) (heq : s = a ++ pat ++ b) :
    ∀ j, j < pat.length → s[a.length + j]? = pat[j]? := by
  intro j hj
  subst heq
  rw [List.append_assoc, List.getElem?_append_right (by omega)]
  have : a.length + j - a.length = j := by omega
  rw [this, List.getElem?_append_left hj]

theorem getElem_some_lt {s : List Char} {q : Nat} {c : Char}
    (h : s[q]? = some c) : q < s.length := by
  by_contra hc
  rw [List.getElem?_eq_none_iff.mpr (by omega)] at h
  exact Option.noConfusion h

theorem anchorL_interior : ∀ j, 1 ≤ j → j < 15 → ¬ anchorL[j]? = some '\\' := by
  intro j h1 h2
  interval_cases j <;> simp [anchorL]

theorem anchorE_interior : ∀ j, 1 ≤ j → j < 17 → ¬ anchorE[j]? = some '\\' := by
  intro j h1 h2
  interval_cases j <;> simp [anchorE]

/-- In a document of shape prefix, Latin anchor, middle one, English
anchor, middle two, suffix — all four free regions anchor-safe — a
backslash followed by `S` sits exactly at one of the two anchors. -/
theorem slashS_positions (t1 m1 m2 t2 : List Char)
    (h1 : safeChars t1 = true) (hm1 : safeChars m1 = true)
    (hm2 : safeChars m2 = true) (h2 : safeChars t2 = true) (p : Nat)
    (hb : (t1 ++ anchorL ++ m1 ++ anchorE ++ m2 ++ t2)[p]? = some '\\')
    (hS : (t1 ++ anchorL ++ m1 ++ anchorE ++ m2 ++ t2)[p + 1]? = some 'S') :
    p = t1.length ∨ p = t1.length + 15 + m1.length := by
  have hAL : anchorL.length = 15 := by decide
  have hAE : anchorE.length = 17 := by decide
  have hs' : t1 ++ anchorL ++ m1 ++ anchorE ++ m2 ++ t2 =
      t1 ++ (anchorL ++ (m1 ++ (anchorE ++ (m2 ++ t2)))) := by
    simp [List.append_assoc]
  rw [hs'] at hb hS
  set s := t1 ++ (anchorL ++ (m1 ++ (anchorE ++ (m2 ++ t2)))) with hs
  have hregion : ∀ q, q < t1.length → s[q]? = t1[q]? := by
    intro q hq
    rw [hs, List.getElem?_append_left hq]
  have hregionAL : ∀ q, q < 15 → s[t1.length + q]? = anchorL[q]? := by
    intro q hq
    rw [hs, List.getElem?_append_right (by omega)]
    have h' : t1.length + q - t1.length = q := by omega
    rw [h', List.getElem?_append_left (by omega)]
  have hregionM1 : ∀ q, q < m1.length →
      s[t1.length + 15 + q]? = m1[q]? := by
    intro q hq
    rw [hs, List.getElem?_append_right (by omega)]
    have h' : t1.length + 15 + q - t1.length = 15 + q := by omega
    rw [h', List.getElem?_append_right (by omega)]
    have h'' : 15 + q - anchorL.length = q := by omega
    rw [h'', List.getElem?_append_left (by omega)]
  have hregionAE : ∀ q, q < 17 →
      s[t1.length + 15 + m1.length + q]? = anchorE[q]? := by
    intro q hq
    rw [hs, List.getElem?_append_right (by omega)]
    have h' : t1.length + 15 + m1.length + q - t1.length =
        15 + (m1.length + q) := by omega
    rw [h', List.getElem?_append_right (by omega)]
    have h'' : 15 + (m1.length + q) - anchorL.length = m1.length + q := by omega
    rw [h'', List.getElem?_append_right (by omega)]
    have h3 : m1.length + q - m1.length = q := by omega
    rw [h3, List.getElem?_append_left (by omega)]
  have hregionM2 : ∀ q, q < m2.length →
      s[t1.length + 15 + m1.length + 17 + q]? = m2[q]? := by
    intro q hq
    rw [hs, List.getElem?_append_right (by omega)]
    have h' : t1.length + 15 + m1.length + 17 + q - t1.length =
        15 + (m1.length + (17 + q)) := by omega
    rw [h', List.getElem?_append_right (by omega)]
    have h'' : 15 + (m1.length + (17 + q)) - anchorL.length =
        m1.length + (17 + q) := by omega
    rw [h'', List.getElem?_append_right (by omega)]
    have h3 : m1.length + (17 + q) - m1.length = 17 + q := by omega
    rw [h3, List.getElem?_append_right (by omega)]
    have h4 : 17 + q - anchorE.length = q := by omega
    rw [h4, List.getElem?_append_left (by omega)]
  have hregionT2 : ∀ q,
      s[t1.length + 15 + m1.length + 17 + m2.length + q]? = t2[q]? := by
    intro q
    rw [hs, List.getElem?_append_right (by omega)]
    have h' : t1.length + 15 + m1.length + 17 + m2.length + q - t1.length =
        15 + (m1.length + (17 + (m2.length + q))) := by omega
    rw [h', List.getElem?_append_right (by omega)]
    have h'' : 15 + (m1.length + (17 + (m2.length + q))) - anchorL.length =
        m1.length + (17 + (m2.length + q)) := by omega
    rw [h'', List.getElem?_append_right (by omega)]
    have h3 : m1.length + (17 + (m2.length + q)) - m1.length =
        17 + (m2.length + q) := by omega
    rw [h3, List.getElem?_append_right (by omega)]
    have h4 : 17 + (m2.length + q) - anchorE.length = m2.length + q := by omega
    rw [h4, List.getElem?_append_right (by omega)]
    congr 1
    omega
  have hslen : s.length =
      t1.length + 15 + m1.length + 17 + m2.length + t2.length := by
    rw [hs]
    simp only [List.length_append, hAL, hAE]
    omega
  have hplen : p < s.length := getElem_some_lt hb
  by_cases hp1 : p < t1.length
  · exfalso
    rw [hregion p hp1] at hb
    obtain ⟨d, hd1, hd2⟩ := safeChars_getElem t1 p h1 hb
    have hd1' : p + 1 < t1.length := getElem_some_lt hd1
    rw [hregion (p + 1) hd1', hd1] at hS
    exact hd2 (by simpa using hS)
  by_cases hp2 : p < t1.length + 15
  · left
    by_contra hne
    have hj : p = t1.length + (p - t1.length) := by omega
    rw [hj, hregionAL (p - t1.length) (by omega)] at hb
    exact anchorL_interior (p - t1.length) (by omega) (by omega) hb
  by_cases hp3 : p < t1.length + 15 + m1.length
  · exfalso
    have hj : p = t1.length + 15 + (p - (t1.length + 15)) := by omega
    rw [hj, hregionM1 (p - (t1.length + 15)) (by omega)] at hb
    obtain ⟨d, hd1, hd2⟩ := safeChars_getElem m1 _ hm1 hb
    have hd1' : p - (t1.length + 15) + 1 < m1.length := getElem_some_lt hd1
    have hj2 : p + 1 = t1.length + 15 + (p - (t1.length + 15) + 1) := by omega
    rw [hj2, hregionM1 _ hd1', hd1] at hS
    exact hd2 (by simpa using hS)
  by_cases hp4 : p < t1.length + 15 + m1.length + 17
  · right
    by_contra hne
    have hj : p = t1.length + 15 + m1.length +
        (p - (t1.length + 15 + m1.length)) := by omega
    rw [hj, hregionAE (p - (t1.length + 15 + m1.length)) (by omega)] at hb
    exact anchorE_interior (p - (t1.length + 15 + m1.length)) (by omega)
      (by omega) hb
  by_cases hp5 : p < t1.length + 15 + m1.length + 17 + m2.length
  · exfalso
    have hj : p = t1.length + 15 + m1.length + 17 +
        (p - (t1.length + 15 + m1.length + 17)) := by omega
    rw [hj, hregionM2 (p - (t1.length + 15 + m1.length + 17)) (by omega)] at hb
    obtain ⟨d, hd1, hd2⟩ := safeChars_getElem m2 _ hm2 hb
    have hd1' : p - (t1.length + 15 + m1.length + 17) + 1 < m2.length :=
      getElem_some_lt hd1
    have hj2 : p + 1 = t1.length + 15 + m1.length + 17 +
        (p - (t1.length + 15 + m1.length + 17) + 1) := by omega
    rw [hj2, hregionM2 _ hd1', hd1] at hS
    exact hd2 (by simpa using hS)
  · exfalso
    have hj : p = t1.length + 15 + m1.length + 17 + m2.length +
        (p - (t1.length + 15 + m1.length + 17 + m2.length)) := by omega
    rw [hj, hregionT2 (p - (t1.length + 15 + m1.length + 17 + m2.length))] at hb
    obtain ⟨d, hd1, hd2⟩ := safeChars_getElem t2 _ h2 hb
    have hj2 : p + 1 = t1.length + 15 + m1.length + 17 + m2.length +
        (p - (t1.length + 15 + m1.length + 17 + m2.length) + 1) := by omega
    rw [hj2, hregionT2 _, hd1] at hS
    exact hd2 (by simpa using hS)

theorem sixRegion_AL (t1 m1 m2 t2 : List Char) (q : Nat) (hq : q < 15) :
    (t1 ++ anchorL ++ m1 ++ anchorE ++ m2 ++ t2)[t1.length + q]? =
      anchorL[q]? := by
  have hs' : t1 ++ anchorL ++ m1 ++ anchorE ++ m2 ++ t2 =
      t1 ++ (anchorL ++ (m1 ++ (anchorE ++ (m2 ++ t2)))) := by
    simp [List.append_assoc]
  have hAL : anchorL.length = 15 := by decide
  rw [hs', List.getElem?_append_right (by omega)]
  have h' : t1.length + q - t1.length = q := by omega
  rw [h', List.getElem?_append_left (by omega)]

theorem sixRegion_AE (t1 m1 m2 t2 : List Char) (q : Nat) (hq : q < 17) :
    (t1 ++ anchorL ++ m1 ++ anchorE ++ m2 ++ t2)[t1.length + 15 + m1.length + q]? =
      anchorE[q]? := by
  have hs' : t1 ++ anchorL ++ m1 ++ anchorE ++ m2 ++ t2 =
      t1 ++ (anchorL ++ (m1 ++ (anchorE ++ (m2 ++ t2)))) := by
    simp [List.append_assoc]
  have hAL : anchorL.length = 15 := by decide
  have hAE : anchorE.length = 17 := by decide
  rw [hs', List.getElem?_append_right (by omega)]
  have h' : t1.length + 15 + m1.length + q - t1.length =
      15 + (m1.length + q) := by omega
  rw [h', List.getElem?_append_right (by omega)]
  have h'' : 15 + (m1.length + q) - anchorL.length = m1.length + q := by omega
  rw [h'', List.getElem?_append_right (by omega)]
  have h3 : m1.length + q - m1.length = q := by omega
  rw [h3, List.getElem?_append_left (by omega)]

/-- The Latin anchor occurs in the six-region document only at its
designated position. -/
theorem anchorL_unique (t1 m1 m2 t2 a b : List Char)
    (h1 : safeChars t1 = true) (hm1 : safeChars m1 = true)
    (hm2 : safeChars m2 = true) (h2 : safeChars t2 = true)
    (heq : t1 ++ anchorL ++ m1 ++ anchorE ++ m2 ++ t2 = a ++ anchorL ++ b) :
    a = t1 ∧ b = m1 ++ anchorE ++ m2 ++ t2 := by
  have hchar := occ_chars _ a anchorL b heq
  have hb : (t1 ++ anchorL ++ m1 ++ anchorE ++ m2 ++ t2)[a.length]? =
      some '\\' := by
    have := hchar 0 (by decide)
    simpa using this
  have hS : (t1 ++ anchorL ++ m1 ++ anchorE ++ m2 ++ t2)[a.length + 1]? =
      some 'S' := by
    have := hchar 1 (by decide)
    simpa using this
  rcases slashS_positions t1 m1 m2 t2 h1 hm1 hm2 h2 a.length hb hS with hp | hp
  · have heq' : t1 ++ (anchorL ++ (m1 ++ (anchorE ++ (m2 ++ t2)))) =
        a ++ (anchorL ++ b) := by
      rw [← List.append_assoc, ← List.append_assoc, ← List.append_assoc,
        ← List.append_assoc, heq]
      simp [List.append_assoc]
    obtain ⟨hat, hrest⟩ := List.append_inj heq' (by omega)
    refine ⟨hat.symm, ?_⟩
    have hbm := List.append_cancel_left hrest
    rw [← hbm]
    simp [List.append_assoc]
  · exfalso
    have h8 := hchar 8 (by decide)
    rw [hp] at h8
    rw [sixRegion_AE t1 m1 m2 t2 8 (by omega)] at h8
    have : anchorE[8]? = some 'E' := by decide
    rw [this] at h8
    have : anchorL[8]? = some 'L' := by decide
    rw [this] at h8
    exact absurd h8 (by decide)

/-- The English anchor occurs in the six-region document only at its
designated position. -/
theorem anchorE_unique (t1 m1 m2 t2 a b : List Char)
    (h1 : safeChars t1 = true) (hm1 : safeChars m1 = true)
    (hm2 : safeChars m2 = true) (h2 : safeChars t2 = true)
    (heq : t1 ++ anchorL ++ m1 ++ anchorE ++ m2 ++ t2 = a ++ anchorE ++ b) :
    a = t1 ++ anchorL ++ m1 ∧ b = m2 ++ t2 := by
  have hchar := occ_chars _ a anchorE b heq
  have hb : (t1 ++ anchorL ++ m1 ++ anchorE ++ m2 ++ t2)[a.length]? =
      some '\\' := by
    have := hchar 0 (by decide)
    simpa using this
  have hS : (t1 ++ anchorL ++ m1 ++ anchorE ++ m2 ++ t2)[a.length + 1]? =
      some 'S' := by
    have := hchar 1 (by decide)
    simpa using this
  rcases slashS_positions t1 m1 m2 t2 h1 hm1 hm2 h2 a.length hb hS with hp | hp
  · exfalso
    have h8 := hchar 8 (by decide)
    rw [hp] at h8
    rw [sixRegion_AL t1 m1 m2 t2 8 (by omega)] at h8
    have : anchorL[8]? = some 'L' := by decide
    rw [this] at h8
    have : anchorE[8]? = some 'E' := by decide
    rw [this] at h8
    exact absurd h8 (by decide)
  · have heq' : (t1 ++ anchorL ++ m1) ++ (anchorE ++ (m2 ++ t2)) =
        a ++ (anchorE ++ b) := by
      rw [← List.append_assoc, ← List.append_assoc, heq]
      simp [List.append_assoc]
    have hlen : (t1 ++ anchorL ++ m1).length = a.length := by
      have hAL : anchorL.length = 15 := by decide
      simp only [List.length_append, hAL]
      omega
    obtain ⟨hat, hrest⟩ := List.append_inj heq' hlen
    exact ⟨hat.symm, (List.append_cancel_left hrest).symm⟩

theorem anchorL_ne_nil : anchorL ≠ [] := by decide

theorem anchorE_ne_nil : anchorE ≠ [] := by decide

theorem safeChars_separator : safeChars separator = true := by decide

theorem replEsc_separator (p : List Char) :
    replEsc (separator ++ p) = separator ++ replEsc p := rfl

theorem digitChar_ne_backslash (m : Nat) : ¬ (Nat.digitChar m = '\\') := by
  by_cases h : m < 16
  · interval_cases m <;> decide
  · unfold Nat.digitChar
    repeat rw [if_neg (by omega)]
    decide

theorem mem_toDigitsCore (b : Nat) :
    ∀ (fuel n : Nat) (l : List Char) (c : Char),
      c ∈ Nat.toDigitsCore b fuel n l →
      c ∈ l ∨ ∃ m, c = Nat.digitChar m := by
  intro fuel
  induction fuel with
  | zero => intro n l c h; exact Or.inl h
  | succ f ih =>
    intro n l c h
    rw [Nat.toDigitsCore] at h
    split at h
    · rcases List.mem_cons.mp h with rfl | hl
      · exact Or.inr ⟨n % b, rfl⟩
      · exact Or.inl hl
    · rcases ih (n / b) (Nat.digitChar (n % b) :: l) c h with hl | hm
      · rcases List.mem_cons.mp hl with rfl | hl'
        · exact Or.inr ⟨n % b, rfl⟩
        · exact Or.inl hl'
      · exact Or.inr hm

theorem safeChars_toString (n : Nat) : safeChars (toString n).data = true := by
  apply safeChars_no_backslash
  intro c hc
  have hc' : c ∈ Nat.toDigits 10 n := hc
  rcases mem_toDigitsCore 10 (n + 1) n [] c hc' with h | ⟨m, rfl⟩
  · exact absurd h (List.not_mem_nil c)
  · intro h
    exact digitChar_ne_backslash m h

theorem safeChars_headingBlock (n : Nat) : safeChars (headingBlock n) = true := by
  unfold headingBlock
  exact safeChars_append _ _
    (safeChars_append _ _ (by decide) (safeChars_toString n)) (by decide)

/-- Inserting content right after the Latin anchor of a six-region
document. -/
theorem replace_latin (t1 latin mid english t2 ins : List Char)
    (h1 : safeChars t1 = true) (hl : safeChars latin = true)
    (hmid : safeChars mid = true) (hen : safeChars english = true)
    (h2 : safeChars t2 = true) :
    replaceAll anchorL (anchorL ++ ins) (docShape t1 latin mid english t2) =
      docShape t1 (ins ++ latin) mid english t2 := by
  have hsafe_m1 : safeChars (latin ++ mid) = true :=
    safeChars_append _ _ hl hmid
  have hu : ∀ a b : List Char,
      t1 ++ anchorL ++ (latin ++ mid ++ anchorE ++ english ++ t2) =
        a ++ anchorL ++ b → a = t1 := by
    intro a b h
    have h' : t1 ++ anchorL ++ (latin ++ mid) ++ anchorE ++ english ++ t2 =
        a ++ anchorL ++ b := by
      rw [← h]
      simp [List.append_assoc]
    exact (anchorL_unique t1 (latin ++ mid) english t2 a b h1 hsafe_m1 hen h2
      h').1
  have hmain := replaceAll_unique anchorL (anchorL ++ ins) t1
    (latin ++ mid ++ anchorE ++ english ++ t2) anchorL_ne_nil hu
  have hshape : docShape t1 latin mid english t2 =
      t1 ++ anchorL ++ (latin ++ mid ++ anchorE ++ english ++ t2) := by
    unfold docShape
    simp [List.append_assoc]
  rw [hshape, hmain]
  unfold docShape
  simp [List.append_assoc]

/-- Inserting content right after the English anchor of a six-region
document. -/
theorem replace_english (t1 latin mid english t2 ins : List Char)
    (h1 : safeChars t1 = true) (hl : safeChars latin = true)
    (hmid : safeChars mid = true) (hen : safeChars english = true)
    (h2 : safeChars t2 = true) :
    replaceAll anchorE (anchorE ++ ins) (docShape t1 latin mid english t2) =
      docShape t1 latin mid (ins ++ english) t2 := by
  have hsafe_m1 : safeChars (latin ++ mid) = true :=
    safeChars_append _ _ hl hmid
  have hu : ∀ a b : List Char,
      (t1 ++ anchorL ++ (latin ++ mid)) ++ anchorE ++ (english ++ t2) =
        a ++ anchorE ++ b → a = t1 ++ anchorL ++ (latin ++ mid) := by
    intro a b h
    have h' : t1 ++ anchorL ++ (latin ++ mid) ++ anchorE ++ english ++ t2 =
        a ++ anchorE ++ b := by
      rw [← h]
      simp [List.append_assoc]
    exact (anchorE_unique t1 (latin ++ mid) english t2 a b h1 hsafe_m1 hen h2
      h').1
  have hmain := replaceAll_unique anchorE (anchorE ++ ins)
    (t1 ++ anchorL ++ (latin ++ mid)) (english ++ t2) anchorE_ne_nil hu
  have hshape : docShape t1 latin mid english t2 =
      (t1 ++ anchorL ++ (latin ++ mid)) ++ anchorE ++ (english ++ t2) := by
    unfold docShape
    simp [List.append_assoc]
  rw [hshape, hmain]
  unfold docShape
  simp [List.append_assoc]

theorem exceptMap_ok (f : List Char → List Char) (x : List Char) :
    Except.map f (Except.ok x : Except PyErr (List Char)) = Except.ok (f x) := rfl

theorem exceptBind_ok (f : List Char → Except PyErr (List Char)) (x : List Char) :
    (Except.ok x : Except PyErr (List Char)).bind f = f x := rfl

theorem safeChars_flatten :
    ∀ L : List (List Char), (∀ x ∈ L, safeChars x = true) →
      safeChars L.flatten = true := by
  intro L
  induction L with
  | nil => intro _; rfl
  | cons x rest ih =>
    intro h
    rw [List.flatten_cons]
    exact safeChars_append _ _ (h x (by simp))
      (ih (fun y hy => h y (by simp [hy])))

theorem safeChars_parIns (p : List Char) (hp : safeChars (replEsc p) = true) :
    safeChars (replEsc (separator ++ p)) = true := by
  rw [replEsc_separator]
  exact safeChars_append _ _ safeChars_separator hp

theorem spliceParsFromEnd_spec (t1 mid t2 : List Char)
    (h1 : safeChars t1 = true) (hmid : safeChars mid = true)
    (h2 : safeChars t2 = true) :
    ∀ (lpRev epRev : List (List Char)) (latin english : List Char),
      lpRev.length = epRev.length →
      (∀ p ∈ lpRev, safeChars (replEsc p) = true) →
      (∀ p ∈ epRev, safeChars (replEsc p) = true) →
      safeChars latin = true → safeChars english = true →
      spliceParsFromEnd lpRev epRev (docShape t1 latin mid english t2) =
        .ok (docShape t1
          ((lpRev.reverse.map (fun p => separator ++ replEsc p)).flatten ++ latin)
          mid
          ((epRev.reverse.map (fun p => separator ++ replEsc p)).flatten ++ english)
          t2) := by
  intro lpRev
  induction lpRev with
  | nil =>
    intro epRev latin english hlen _ _ _ _
    have : epRev = [] := List.length_eq_zero.mp (by simpa using hlen.symm)
    subst this
    simp [spliceParsFromEnd]
  | cons l ls ih =>
    intro epRev latin english hlen hsl hse hlat hen
    cases epRev with
    | nil => simp at hlen
    | cons e es =>
      rw [spliceParsFromEnd]
      have hsl_l : safeChars (replEsc l) = true := hsl l (by simp)
      have hse_e : safeChars (replEsc e) = true := hse e (by simp)
      rw [replace_latin t1 latin mid english t2 (replEsc (separator ++ l))
        h1 hlat hmid hen h2]
      have hlat' : safeChars (replEsc (separator ++ l) ++ latin) = true :=
        safeChars_append _ _ (safeChars_parIns l hsl_l) hlat
      rw [replace_english t1 (replEsc (separator ++ l) ++ latin) mid english t2
        (replEsc (separator ++ e)) h1 hlat' hmid hen h2]
      have hen' : safeChars (replEsc (separator ++ e) ++ english) = true :=
        safeChars_append _ _ (safeChars_parIns e hse_e) hen
      rw [ih es _ _ (by simpa using hlen) (fun p hp => hsl p (by simp [hp]))
        (fun p hp => hse p (by simp [hp])) hlat' hen']
      congr 2
      · rw [List.reverse_cons, List.map_append, List.flatten_append,
          replEsc_separator]
        simp [List.append_assoc]
      · rw [List.reverse_cons, List.map_append, List.flatten_append,
          replEsc_separator]
        simp [List.append_assoc]

theorem insert_into_template_spec (t1 mid t2 latin english : List Char)
    (ch : ChapterData)
    (h1 : safeChars t1 = true) (hmid : safeChars mid = true)
    (h2 : safeChars t2 = true) (hlat : safeChars latin = true)
    (hen : safeChars english = true)
    (hlen : ch.latin_pars.length = ch.english_pars.length)
    (hsl : ∀ p ∈ ch.latin_pars, safeChars (replEsc p) = true)
    (hse : ∀ p ∈ ch.english_pars, safeChars (replEsc p) = true) :
    insert_into_template ch (docShape t1 latin mid english t2) =
      .ok (docShape t1 (chapterLatinBlock ch ++ latin) mid
        (chapterEnglishBlock ch ++ english) t2) := by
  unfold insert_into_template
  rw [spliceParsFromEnd_spec t1 mid t2 h1 hmid h2 ch.latin_pars.reverse
    ch.english_pars.reverse latin english (by simp [hlen])
    (fun p hp => hsl p (by simpa using hp))
    (fun p hp => hse p (by simpa using hp)) hlat hen]
  rw [exceptMap_ok]
  have hflatL : safeChars
      ((ch.latin_pars.map (fun p => separator ++ replEsc p)).flatten) = true := by
    apply safeChars_flatten
    intro x hx
    rw [List.mem_map] at hx
    obtain ⟨p, hp, rfl⟩ := hx
    exact safeChars_append _ _ safeChars_separator (hsl p hp)
  have hflatE : safeChars
      ((ch.english_pars.map (fun p => separator ++ replEsc p)).flatten) = true := by
    apply safeChars_flatten
    intro x hx
    rw [List.mem_map] at hx
    obtain ⟨p, hp, rfl⟩ := hx
    exact safeChars_append _ _ safeChars_separator (hse p hp)
  rw [List.reverse_reverse, List.reverse_reverse]
  rw [replace_latin t1 _ mid _ t2 (headingBlock ch.number) h1
    (safeChars_append _ _ hflatL hlat) hmid
    (safeChars_append _ _ hflatE hen) h2]
  rw [replace_english t1 _ mid _ t2 (headingBlock ch.number) h1
    (safeChars_append _ _ (safeChars_headingBlock ch.number)
      (safeChars_append _ _ hflatL hlat)) hmid
    (safeChars_append _ _ hflatE hen) h2]
  unfold chapterLatinBlock chapterEnglishBlock
  simp [List.append_assoc]

theorem safeChars_chapterLatinBlock (ch : ChapterData)
    (hsl : ∀ p ∈ ch.latin_pars, safeChars (replEsc p) = true) :
    safeChars (chapterLatinBlock ch) = true := by
  unfold chapterLatinBlock
  apply safeChars_append _ _ (safeChars_headingBlock ch.number)
  apply safeChars_flatten
  intro x hx
  rw [List.mem_map] at hx
  obtain ⟨p, hp, rfl⟩ := hx
  exact safeChars_append _ _ safeChars_separator (hsl p hp)

theorem safeChars_chapterEnglishBlock (ch : ChapterData)
    (hse : ∀ p ∈ ch.english_pars, safeChars (replEsc p) = true) :
    safeChars (chapterEnglishBlock ch) = true := by
  unfold chapterEnglishBlock
  apply safeChars_append _ _ (safeChars_headingBlock ch.number)
  apply safeChars_flatten
  intro x hx
  rw [List.mem_map] at hx
  obtain ⟨p, hp, rfl⟩ := hx
  exact safeChars_append _ _ safeChars_separator (hse p hp)

/-- Claim C7: composing an ordered list of chapters into a template holding
the two anchors, processing chapters in reverse order (last chapter first,
as the main loop does) and inserting immediately after the anchor, yields a
document in which every chapter's paragraphs appear in chapter-ascending
order right after the anchor, each chapter's number heading precedes that
chapter's content, and consecutive paragraphs are separated by the
paragraph-break directive. -/
theorem template_compositor_c7 (cs : List ChapterData) (t1 mid t2 : List Char)
    (h1 : safeChars t1 = true) (hmid : safeChars mid = true)
    (h2 : safeChars t2 = true)
    (hlen : ∀ ch ∈ cs, ch.latin_pars.length = ch.english_pars.length)
    (hsl : ∀ ch ∈ cs, ∀ p ∈ ch.latin_pars, safeChars (replEsc p) = true)
    (hse : ∀ ch ∈ cs, ∀ p ∈ ch.english_pars, safeChars (replEsc p) = true) :
    insert_chapters_reversed cs (docShape t1 [] mid [] t2) =
      .ok (docShape t1 (latinDoc cs) mid (englishDoc cs) t2) := by
  induction cs with
  | nil => simp [insert_chapters_reversed, latinDoc, englishDoc]
  | cons ch rest ih =>
    rw [insert_chapters_reversed]
    rw [ih (fun c hc => hlen c (by simp [hc])) (fun c hc => hsl c (by simp [hc]))
      (fun c hc => hse c (by simp [hc])), exceptBind_ok]
    have hlatRest : safeChars (latinDoc rest) = true := by
      unfold latinDoc
      apply safeChars_flatten
      intro x hx
      rw [List.mem_map] at hx
      obtain ⟨c, hc, rfl⟩ := hx
      exact safeChars_chapterLatinBlock c (hsl c (by simp [hc]))
    have henRest : safeChars (englishDoc rest) = true := by
      unfold englishDoc
      apply safeChars_flatten
      intro x hx
      rw [List.mem_map] at hx
      obtain ⟨c, hc, rfl⟩ := hx
      exact safeChars_chapterEnglishBlock c (hse c (by simp [hc]))
    rw [insert_into_template_spec t1 mid t2 (latinDoc rest) (englishDoc rest)
      ch h1 hmid h2 hlatRest henRest (hlen ch (by simp))
      (hsl ch (by simp)) (hse ch (by simp))]
    unfold latinDoc englishDoc
    simp

/-- Witness for C7: two one-paragraph chapters composed into a small
template. -/
theorem template_compositor_c7_witness :
    insert_chapters_reversed
      [⟨1, ["unum".data], ["one".data]⟩, ⟨2, ["duo".data], ["two".data]⟩]
      (docShape "T0\n".data [] "\nMID\n".data [] "\nT9".data) =
      .ok (docShape "T0\n".data
        (latinDoc [⟨1, ["unum".data], ["one".data]⟩,
          ⟨2, ["duo".data], ["two".data]⟩])
        "\nMID\n".data
        (englishDoc [⟨1, ["unum".data], ["one".data]⟩,
          ⟨2, ["duo".data], ["two".data]⟩])
        "\nT9".data) :=
  template_compositor_c7
    [⟨1, ["unum".data], ["one".data]⟩, ⟨2, ["duo".data], ["two".data]⟩]
    "T0\n".data "\nMID\n".data "\nT9".data (by decide) (by decide)
    (by decide) (by decide) (by decide) (by decide)
